import Mathlib

/-!
Verification development for the binary interface-description codec:
a position-tracked zero-copy decoder (crates/parser/src/lib.rs) paired
with a text-side instruction encoder (crates/text/src/ast/instr.rs).

The decoder is embedded shallowly: the Rust `Parser<'a>` borrowing a
byte slice becomes a `Parser` record holding the remaining bytes as a
`List Nat` together with the absolute position `pos`; every `Parse`
impl becomes a function `Parser → Except Error α × Parser` returning
the (possibly mutated) parser state alongside the result, mirroring the
`&mut Parser` discipline of the source, where a failed call leaves in
place whatever mutations happened before the failure.
-/

/-- Error taxonomy of the decoder (enum `ErrorKind` in the source).
Byte/ id payloads are `Nat` (in the source `u8`/`u64`), the found
version string is kept as its byte sequence. -/
inductive ErrorKind where
  | InvalidVersion : List Nat → ErrorKind
  | UlebTooBig : Nat → ErrorKind
  | UlebInvalid : ErrorKind
  | UnexpectedEof : ErrorKind
  | InvalidUtf8 : ErrorKind
  | InvalidSection : Nat → ErrorKind
  | InvalidValType : Nat → ErrorKind
  | InvalidInstruction : Nat → ErrorKind
  | Expected : Nat → ErrorKind
  | TrailingBytes : ErrorKind
deriving DecidableEq, Repr

/-- A decode error: the absolute offset it was raised at (`at` in the
source's `ErrorInner`, renamed `at_` because `at` is a Lean keyword)
plus its kind. -/
structure Error where
  at_ : Nat
  kind : ErrorKind
deriving DecidableEq, Repr

/-- The decoder state (struct `Parser<'a>` in the source): the
remaining input bytes and the absolute position of their start in the
original buffer.  The source borrows a slice of the original buffer;
here the remaining bytes are materialised as a list. -/
structure Parser where
  bytes : List Nat
  pos : Nat
deriving DecidableEq, Repr

/-- `Parser::error`: an error raised at the parser's current position. -/
def Parser.mkError (s : Parser) (kind : ErrorKind) : Error :=
  { at_ := s.pos, kind := kind }

/-- The loop of `leb128::read::unsigned` (the crate the source's
`u32` impl delegates to), reading an unsigned LEB128 integer from the
front of `bytes` with accumulated value `acc` and current `shift`.
Returns the decoded value together with the number of bytes consumed;
any failure of the crate (end of input while reading, or 64-bit
overflow detected at `shift == 63`, whose continuation-skipping loop
also ends in an error either way) is collapsed to `.error ()`, since
the caller maps every crate error to `UlebInvalid` without looking at
it.  `result |= low_bits << shift` is written as an addition, which
agrees because the bit ranges are disjoint and no accepted path
overflows 64 bits. -/
def lebLoop : List Nat → Nat → Nat → Except Unit (Nat × Nat)
  | [], _, _ => .error ()
  | b :: rest, shift, acc =>
    if shift = 63 ∧ b ≠ 0 ∧ b ≠ 1 then
      .error ()
    else if b < 128 then
      .ok (acc + b % 128 * 2 ^ shift, 1)
    else
      match lebLoop rest (shift + 7) (acc + b % 128 * 2 ^ shift) with
      | .ok (v, c) => .ok (v, c + 1)
      | .error () => .error ()

/-- `impl Parse for u8`: pop one byte, advancing the position; fail
with `UnexpectedEof` (state unchanged) on empty input. -/
def parseU8 (s : Parser) : Except Error Nat × Parser :=
  match s.bytes with
  | [] => (.error (s.mkError .UnexpectedEof), s)
  | b :: rest => (.ok b, { bytes := rest, pos := s.pos + 1 })

/-- `impl Parse for u32`: run the LEB128 reader on a scratch copy of
the remaining bytes; on success commit the consumed bytes and advance
`pos` by exactly that count, rejecting values above `u32::MAX` with
`UlebTooBig`; on any reader failure report `UlebInvalid`.  In the
failing cases the parser state is untouched. -/
def parseU32 (s : Parser) : Except Error Nat × Parser :=
  match lebLoop s.bytes 0 0 with
  | .ok (n, c) =>
    if n ≤ 4294967295 then
      (.ok n, { bytes := s.bytes.drop c, pos := s.pos + c })
    else
      (.error (s.mkError (.UlebTooBig n)), s)
  | .error () => (.error (s.mkError .UlebInvalid), s)

/-- `impl Parse for &[u8]`: a length-prefixed raw byte range.  Decode
a `u32` length; if that many bytes remain, yield them and advance past
them, otherwise fail with `Expected len` (`Truncated` in the spec's
vocabulary) — note the source raises this error at the position
already advanced past the length prefix, without resetting it. -/
def parseBytes (s : Parser) : Except Error (List Nat) × Parser :=
  match parseU32 s with
  | (.error e, s') => (.error e, s')
  | (.ok len, s') =>
    if len ≤ s'.bytes.length then
      (.ok (s'.bytes.take len),
        { bytes := s'.bytes.drop len, pos := s'.pos + len })
    else
      (.error (s'.mkError (.Expected len)), s')

/-- Is `b` a UTF-8 continuation byte (`0x80..=0xBF`)? -/
def utf8ContB (b : Nat) : Bool :=
  Nat.ble 128 b && Nat.ble b 191

/-- UTF-8 validity of a byte sequence, following the standard table
used by `str::from_utf8` (ASCII; 2-byte `C2..DF`; 3-byte `E0 A0..BF`,
`E1..EC`, `ED 80..9F`, `EE..EF`; 4-byte `F0 90..BF`, `F1..F3`,
`F4 80..8F`; everything else invalid). -/
def utf8Valid : List Nat → Bool
  | [] => true
  | b :: rest =>
    if b < 128 then utf8Valid rest
    else if 194 ≤ b ∧ b ≤ 223 then
      match rest with
      | c1 :: r => utf8ContB c1 && utf8Valid r
      | [] => false
    else if b = 224 then
      match rest with
      | c1 :: c2 :: r =>
        (Nat.ble 160 c1 && Nat.ble c1 191) && utf8ContB c2 && utf8Valid r
      | _ => false
    else if 225 ≤ b ∧ b ≤ 236 then
      match rest with
      | c1 :: c2 :: r => utf8ContB c1 && utf8ContB c2 && utf8Valid r
      | _ => false
    else if b = 237 then
      match rest with
      | c1 :: c2 :: r =>
        (Nat.ble 128 c1 && Nat.ble c1 159) && utf8ContB c2 && utf8Valid r
      | _ => false
    else if 238 ≤ b ∧ b ≤ 239 then
      match rest with
      | c1 :: c2 :: r => utf8ContB c1 && utf8ContB c2 && utf8Valid r
      | _ => false
    else if b = 240 then
      match rest with
      | c1 :: c2 :: c3 :: r =>
        (Nat.ble 144 c1 && Nat.ble c1 191) && utf8ContB c2 && utf8ContB c3
          && utf8Valid r
      | _ => false
    else if 241 ≤ b ∧ b ≤ 243 then
      match rest with
      | c1 :: c2 :: c3 :: r =>
        utf8ContB c1 && utf8ContB c2 && utf8ContB c3 && utf8Valid r
      | _ => false
    else if b = 244 then
      match rest with
      | c1 :: c2 :: c3 :: r =>
        (Nat.ble 128 c1 && Nat.ble c1 143) && utf8ContB c2 && utf8ContB c3
          && utf8Valid r
      | _ => false
    else false

/-- `impl Parse for &str`: a length-prefixed byte range validated as
UTF-8, the decoded string kept as its byte sequence.  On invalid UTF-8
the source resets `pos` to the start of the length prefix (though the
bytes remain consumed) and reports `InvalidUtf8` there; a failure of
the underlying byte-range decode propagates with its own state. -/
def parseStr (s : Parser) : Except Error (List Nat) × Parser :=
  match parseBytes s with
  | (.error e, s') => (.error e, s')
  | (.ok bs, s') =>
    if utf8Valid bs then
      (.ok bs, s')
    else
      (.error { at_ := s.pos, kind := .InvalidUtf8 },
        { bytes := s'.bytes, pos := s.pos })

/-- The eleven value types (enum `ValType`). -/
inductive ValType where
  | S8 | S16 | S32 | S64 | U8 | U16 | U32 | U64 | F32 | F64 | Str
deriving DecidableEq, Repr

/-- `impl Parse for ValType`: one byte dispatched through the fixed
code table (`0=string … 10=f64`).  On an unrecognised code the source
raises `InvalidValType` at the position already advanced past the code
byte, without resetting it. -/
def valTypeParse (s : Parser) : Except Error ValType × Parser :=
  match parseU8 s with
  | (.error e, s') => (.error e, s')
  | (.ok b, s') =>
    match b with
    | 0 => (.ok .Str, s')
    | 1 => (.ok .S8, s')
    | 2 => (.ok .S16, s')
    | 3 => (.ok .S32, s')
    | 4 => (.ok .S64, s')
    | 5 => (.ok .U8, s')
    | 6 => (.ok .U16, s')
    | 7 => (.ok .U32, s')
    | 8 => (.ok .U64, s')
    | 9 => (.ok .F32, s')
    | 10 => (.ok .F64, s')
    | n => (.error (s'.mkError (.InvalidValType n)), s')

/-- A function type record (struct `Type`): parameter and result value
types. -/
structure TypeRec where
  params : List ValType
  results : List ValType
deriving DecidableEq, Repr

/-- Decode `cnt` consecutive value types, stopping at the first
failure with that failure's state, as `(0..cnt).map(...).collect()`
does for a `Result` collection. -/
def parseValTypesN : Nat → Parser → Except Error (List ValType) × Parser
  | 0, s => (.ok [], s)
  | n + 1, s =>
    match valTypeParse s with
    | (.error e, s') => (.error e, s')
    | (.ok v, s') =>
      match parseValTypesN n s' with
      | (.error e, s'') => (.error e, s'')
      | (.ok vs, s'') => (.ok (v :: vs), s'')

/-- The `types` closure of `impl Parse for Type`: a varint count
followed by that many value-type codes. -/
def parseValTypeSeq (s : Parser) : Except Error (List ValType) × Parser :=
  match parseU32 s with
  | (.error e, s') => (.error e, s')
  | (.ok cnt, s') => parseValTypesN cnt s'

/-- `impl Parse for Type`: params sequence then results sequence. -/
def typeParse (s : Parser) : Except Error TypeRec × Parser :=
  match parseValTypeSeq s with
  | (.error e, s') => (.error e, s')
  | (.ok params, s') =>
    match parseValTypeSeq s' with
    | (.error e, s'') => (.error e, s'')
    | (.ok results, s'') => (.ok { params := params, results := results }, s'')

/-- An import record (struct `Import`): module and name strings (kept
as byte sequences) and a type index. -/
structure Import where
  module : List Nat
  name : List Nat
  ty : Nat
deriving DecidableEq, Repr

/-- `impl Parse for Import`: module string, name string, type index. -/
def importParse (s : Parser) : Except Error Import × Parser :=
  match parseStr s with
  | (.error e, s') => (.error e, s')
  | (.ok m, s') =>
    match parseStr s' with
    | (.error e, s'') => (.error e, s'')
    | (.ok n, s'') =>
      match parseU32 s'' with
      | (.error e, s₃) => (.error e, s₃)
      | (.ok t, s₃) => (.ok { module := m, name := n, ty := t }, s₃)

/-- An export record (struct `Export`): function index and name. -/
structure Export where
  func : Nat
  name : List Nat
deriving DecidableEq, Repr

/-- `impl Parse for Export`: function index then name string. -/
def exportParse (s : Parser) : Except Error Export × Parser :=
  match parseU32 s with
  | (.error e, s') => (.error e, s')
  | (.ok f, s') =>
    match parseStr s' with
    | (.error e, s'') => (.error e, s'')
    | (.ok n, s'') => (.ok { func := f, name := n }, s'')

/-- A function record (struct `Func`): its type index plus the parser
scoped to the rest of its body bytes (the instruction stream). -/
structure Func where
  ty : Nat
  parser : Parser
deriving DecidableEq, Repr

/-- `impl Parse for Func`: read the length-prefixed body, carve a
sub-parser over it whose position is recomputed to the body's true
offset (`pos - bytes.len()`), decode the leading type index from the
sub-parser, and keep the remainder as the instruction stream.  An
error from the type-index decode propagates while the caller's parser
stays advanced past the whole body. -/
def funcParse (s : Parser) : Except Error Func × Parser :=
  match parseBytes s with
  | (.error e, s') => (.error e, s')
  | (.ok bytes, s') =>
    let sub : Parser := { bytes := bytes, pos := s'.pos - bytes.length }
    match parseU32 sub with
    | (.error e, _) => (.error e, s')
    | (.ok ty, sub') => (.ok { ty := ty, parser := sub' }, s')

/-- Section payload carrying type records (struct `Types`). -/
structure Types where
  parser : Parser
  cnt : Nat
deriving DecidableEq, Repr

/-- Section payload carrying import records (struct `Imports`). -/
structure Imports where
  parser : Parser
  cnt : Nat
deriving DecidableEq, Repr

/-- Section payload carrying export records (struct `Exports`). -/
structure Exports where
  parser : Parser
  cnt : Nat
deriving DecidableEq, Repr

/-- Section payload carrying function records (struct `Funcs`). -/
structure Funcs where
  parser : Parser
  cnt : Nat
deriving DecidableEq, Repr

/-- The four section variants (enum `Section`). -/
inductive Section where
  | TypeS : Types → Section
  | ImportS : Imports → Section
  | ExportS : Exports → Section
  | FuncS : Funcs → Section
deriving DecidableEq, Repr

/-- The parser a section's bounded iterator runs over, whichever the
variant. -/
def sectionInner : Section → Parser
  | .TypeS t => t.parser
  | .ImportS i => i.parser
  | .ExportS e => e.parser
  | .FuncS f => f.parser

/-- `impl Parse for Section`: remember the id byte's offset, read the
id, read the length-prefixed payload, carve a sub-parser over the
payload with its position recomputed to the payload's true offset,
then dispatch on the id, decoding the leading item count from the
sub-parser.  On an unrecognised id the source resets the position of
the (shadowing) sub-parser to the id byte and raises `InvalidSection`
there; the caller's parser remains advanced past the payload. -/
def sectionParse (s : Parser) : Except Error Section × Parser :=
  let idPos := s.pos
  match parseU8 s with
  | (.error e, s') => (.error e, s')
  | (.ok id, s') =>
    match parseBytes s' with
    | (.error e, s'') => (.error e, s'')
    | (.ok bytes, s'') =>
      let sub : Parser := { bytes := bytes, pos := s''.pos - bytes.length }
      match id with
      | 0 =>
        match parseU32 sub with
        | (.error e, _) => (.error e, s'')
        | (.ok cnt, sub') => (.ok (.TypeS { parser := sub', cnt := cnt }), s'')
      | 1 =>
        match parseU32 sub with
        | (.error e, _) => (.error e, s'')
        | (.ok cnt, sub') => (.ok (.ImportS { parser := sub', cnt := cnt }), s'')
      | 2 =>
        match parseU32 sub with
        | (.error e, _) => (.error e, s'')
        | (.ok cnt, sub') => (.ok (.ExportS { parser := sub', cnt := cnt }), s'')
      | 3 =>
        match parseU32 sub with
        | (.error e, _) => (.error e, s'')
        | (.ok cnt, sub') => (.ok (.FuncS { parser := sub', cnt := cnt }), s'')
      | n =>
        (.error { at_ := idPos, kind := .InvalidSection n }, s'')

/-- `Parser::parse_next_in_section`, the generic bounded-iteration
driver shared by every section's `Iterator` impl, parameterised by the
element decoder `p`.  Returns the optional yielded result together
with the updated parser state and remaining count. -/
def parse_next_in_section {α : Type} (p : Parser → Except Error α × Parser)
    (s : Parser) (cnt : Nat) : Option (Except Error α) × Parser × Nat :=
  if cnt = 0 then
    if s.bytes.length ≠ 0 then
      (some (.error (s.mkError .TrailingBytes)), s, cnt)
    else
      (none, s, cnt)
  else
    (some (p s).1, (p s).2, cnt - 1)

/-- The binary instruction set (enum `Instruction` produced by the
`instructions!` table: `0x00=ArgGet(u32)`, `0x01=CallCore(u32)`,
`0x02=End`). -/
inductive Instruction where
  | ArgGet : Nat → Instruction
  | CallCore : Nat → Instruction
  | End : Instruction
deriving DecidableEq, Repr

/-- `impl Parse for Instruction` generated by the `instructions!`
table: remember the opcode offset, read the opcode byte, dispatch
through the table decoding the varint operand where the row has one.
On an unrecognised opcode reset the position to the opcode byte and
raise `InvalidInstruction` there (the opcode byte remains consumed). -/
def instrParse (s : Parser) : Except Error Instruction × Parser :=
  let pos := s.pos
  match parseU8 s with
  | (.error e, s') => (.error e, s')
  | (.ok b, s') =>
    match b with
    | 0 =>
      match parseU32 s' with
      | (.error e, s'') => (.error e, s'')
      | (.ok n, s'') => (.ok (.ArgGet n), s'')
    | 1 =>
      match parseU32 s' with
      | (.error e, s'') => (.error e, s'')
      | (.ok n, s'') => (.ok (.CallCore n), s'')
    | 2 => (.ok .End, s')
    | n =>
      (.error { at_ := pos, kind := .InvalidInstruction n },
        { bytes := s'.bytes, pos := pos })

/-- `Func::instrs`: a fresh instruction iterator over a clone of the
body parser, scanning from the body's start each time. -/
def Func.instrs (f : Func) : Parser :=
  f.parser

/-- `impl Iterator for Instructions` — one `next` call: parse an
instruction; a decoded `End` ends iteration if the stream is now
empty and is not itself yielded, otherwise raises `TrailingBytes`;
anything else (a non-terminal instruction or an error) is yielded. -/
def instrsNext (s : Parser) : Option (Except Error Instruction) × Parser :=
  match instrParse s with
  | (.ok .End, s') =>
    if s'.bytes.length = 0 then
      (none, s')
    else
      (some (.error (s'.mkError .TrailingBytes)), s')
  | (r, s') => (some r, s')

/-- Full enumeration of an instruction iterator, as a caller obeying
the spec's policy does: pull items until the iterator ends, stopping
at the first error (which is kept as the final element).  `fuel`
bounds the number of pulls; every use below supplies enough fuel for
the stream at hand. -/
def instrsCollect : Nat → Parser → List (Except Error Instruction)
  | 0, _ => []
  | fuel + 1, s =>
    match instrsNext s with
    | (none, _) => []
    | (some (.ok i), s') => .ok i :: instrsCollect fuel s'
    | (some (.error e), _) => [.error e]

/-- `Parser::new`: decode the leading length-prefixed version string
and compare it byte-for-byte with the externally supplied expected
version (`wit_schema_version::VERSION`, passed here as a parameter);
on mismatch reset the position to zero and fail with `InvalidVersion`
carrying the found string.  Only a successful construction yields a
parser from which sections can be decoded. -/
def newParser (version : List Nat) (bytes : List Nat) : Except Error Parser :=
  let s : Parser := { bytes := bytes, pos := 0 }
  match parseStr s with
  | (.error e, _) => .error e
  | (.ok found, s') =>
    if found = version then
      .ok s'
    else
      .error { at_ := 0, kind := .InvalidVersion found }

/-- Minimal (canonical) unsigned LEB128 encoding, with structural fuel;
`fuel = 10` covers every value below `128 ^ 10 = 2 ^ 70`. -/
def lebEncodeAux : Nat → Nat → List Nat
  | 0, n => [n % 128]
  | fuel + 1, n =>
    if n < 128 then [n] else (n % 128 + 128) :: lebEncodeAux fuel (n / 128)

/-- Modelled from the spec: the operand encoder of the text-side
`Encode` impl (`crate::binary::Encode` for an index, a source file not
present under src/) — "Operand encoding for an index value is the same
varint codec used by the decoder, applied in the forward direction",
i.e. the do-while loop of `leb128::write::unsigned`, which emits the
minimal LEB128 encoding.  Correct for every value below `2 ^ 70`,
which covers all 32- and 64-bit operands considered here. -/
def lebEncode (n : Nat) : List Nat :=
  lebEncodeAux 10 n

/-- The text-side `Encode` impl generated by the `instructions!` table
in `ast/instr.rs`: the opcode byte from the table (`[0x00]`, `[0x01]`,
`[0x02]`) followed by the encoded operand where the row has one.  The
text side's operand is a `wast::Index`; the claim concerns numeric
indices, modelled as the resolved number. -/
def encodeInstr : Instruction → List Nat
  | .ArgGet n => 0 :: lebEncode n
  | .CallCore n => 1 :: lebEncode n
  | .End => [2]

deriving instance DecidableEq for Except

/-! ### Helper lemmas -/

/-- A successful byte read pops exactly the head byte and advances the
position by one. -/
theorem parseU8_ok {s : Parser} {b : Nat} {s' : Parser}
    (h : parseU8 s = (.ok b, s')) :
    s.bytes = b :: s'.bytes ∧ s'.pos = s.pos + 1 := by
  rcases s with ⟨bytes, pos⟩
  cases bytes with
  | nil => simp [parseU8] at h
  | cons x rest =>
    simp only [parseU8, Prod.mk.injEq, Except.ok.injEq] at h
    obtain ⟨rfl, rfl⟩ := h
    simp

/-- The LEB128 reader consumes between one byte and the whole input on
success. -/
theorem lebLoop_ok_le (bytes : List Nat) :
    ∀ shift acc v c, lebLoop bytes shift acc = .ok (v, c) →
      1 ≤ c ∧ c ≤ bytes.length := by
  induction bytes with
  | nil => intro shift acc v c h; simp [lebLoop] at h
  | cons b rest ih =>
    intro shift acc v c h
    rw [lebLoop] at h
    split at h
    · simp at h
    · split at h
      · simp only [Except.ok.injEq, Prod.mk.injEq] at h
        obtain ⟨-, rfl⟩ := h
        simp
      · split at h
        next v' c' heq =>
          simp only [Except.ok.injEq, Prod.mk.injEq] at h
          obtain ⟨-, rfl⟩ := h
          have := ih (shift + 7) _ v' c' heq
          simp only [List.length_cons]
          omega
        next heq => simp at h

/-- Digit split for the LEB encoding step. -/
theorem leb_digit_recompose (n shift : Nat) :
    n % 128 * 2 ^ shift + n / 128 * 2 ^ (shift + 7) = n * 2 ^ shift := by
  have hpow : (2 : Nat) ^ (shift + 7) = 2 ^ shift * 128 := by
    rw [pow_add]; norm_num
  obtain ⟨q, r, hr, rfl⟩ : ∃ q r, r < 128 ∧ n = 128 * q + r :=
    ⟨n / 128, n % 128, Nat.mod_lt _ (by norm_num), by omega⟩
  have h1 : (128 * q + r) % 128 = r := by omega
  have h2 : (128 * q + r) / 128 = q := by omega
  rw [h1, h2, hpow]
  ring

/-- Reading the minimal LEB128 encoding of `n` (fuelled) from shift
`shift` succeeds when the remaining value fits 64 bits, consuming
exactly the encoding. -/
theorem lebLoop_encode_ok (rest : List Nat) :
    ∀ fuel n shift acc, n < 128 ^ fuel → shift % 7 = 0 → shift ≤ 63 →
      n * 2 ^ shift < 2 ^ 64 →
      lebLoop (lebEncodeAux fuel n ++ rest) shift acc =
        .ok (acc + n * 2 ^ shift, (lebEncodeAux fuel n).length) := by
  intro fuel
  induction fuel with
  | zero =>
    intro n shift acc hn _ _ _
    have hn0 : n = 0 := by simpa using hn
    subst hn0
    simp [lebEncodeAux, lebLoop]
  | succ f ih =>
    intro n shift acc hn h7 h63 hlt
    by_cases hb : n < 128
    · have hg : ¬ (shift = 63 ∧ n ≠ 0 ∧ n ≠ 1) := by
        rintro ⟨rfl, h0, h1⟩
        have h2 : 2 * 2 ^ 63 ≤ n * 2 ^ 63 :=
          Nat.mul_le_mul_right _ (by omega)
        have h3 : (2 : Nat) ^ 64 = 2 * 2 ^ 63 := by norm_num
        omega
      simp [lebEncodeAux, hb, lebLoop, hg, Nat.mod_eq_of_lt hb]
    · push_neg at hb
      have hshift : shift ≤ 56 := by
        have h1 : (2 : Nat) ^ (shift + 7) ≤ n * 2 ^ shift := by
          rw [pow_add]
          calc (2 : Nat) ^ shift * 2 ^ 7 = 128 * 2 ^ shift := by ring_nf
            _ ≤ n * 2 ^ shift := Nat.mul_le_mul_right _ hb
        have h2 : (2 : Nat) ^ (shift + 7) < 2 ^ 64 := lt_of_le_of_lt h1 hlt
        have h3 : shift + 7 < 64 :=
          (Nat.pow_lt_pow_iff_right (by norm_num)).mp h2
        omega
      have hg : ¬ (shift = 63 ∧ (n % 128 + 128) ≠ 0 ∧ (n % 128 + 128) ≠ 1) := by
        rintro ⟨rfl, -, -⟩; omega
      have hbyte : ¬ (n % 128 + 128 < 128) := by omega
      have hdiv : n / 128 < 128 ^ f := by
        rw [pow_succ] at hn
        exact Nat.div_lt_of_lt_mul (by omega)
      have hlt' : n / 128 * 2 ^ (shift + 7) < 2 ^ 64 := by
        have := leb_digit_recompose n shift
        omega
      have hrec := ih (n / 128) (shift + 7) (acc + (n % 128 + 128) % 128 * 2 ^ shift)
        hdiv (by omega) (by omega) hlt'
      have hmod : (n % 128 + 128) % 128 = n % 128 := by omega
      have hlen : (lebEncodeAux (f + 1) n).length =
          (lebEncodeAux f (n / 128)).length + 1 := by
        simp [lebEncodeAux, Nat.not_lt.mpr hb]
      rw [lebEncodeAux]
      rw [if_neg (Nat.not_lt.mpr hb)]
      simp only [List.cons_append]
      rw [lebLoop, if_neg hg, if_neg hbyte, hrec]
      rw [hmod] at hrec ⊢
      have hval : acc + n % 128 * 2 ^ shift + n / 128 * 2 ^ (shift + 7) =
          acc + n * 2 ^ shift := by
        have := leb_digit_recompose n shift
        omega
      simp [hval]

/-- Reading the minimal LEB128 encoding of `n` (fuelled) from shift
`shift` hits the 64-bit overflow guard when the remaining value does
not fit 64 bits. -/
theorem lebLoop_encode_err (rest : List Nat) :
    ∀ fuel n shift acc, n < 128 ^ fuel → shift % 7 = 0 → shift ≤ 63 →
      2 ^ 64 ≤ n * 2 ^ shift →
      lebLoop (lebEncodeAux fuel n ++ rest) shift acc = .error () := by
  intro fuel
  induction fuel with
  | zero =>
    intro n shift acc hn _ _ hge
    have hn0 : n = 0 := by simpa using hn
    subst hn0
    simp at hge
  | succ f ih =>
    intro n shift acc hn h7 h63 hge
    by_cases hb : n < 128
    · have hsh : shift = 63 := by
        by_contra hne
        have hs56 : shift ≤ 56 := by omega
        have h1 : n * 2 ^ shift < 2 ^ 64 := by
          calc n * 2 ^ shift < 128 * 2 ^ shift := by
                have hp : 0 < 2 ^ shift := Nat.pos_pow_of_pos _ (by norm_num)
                exact Nat.mul_lt_mul_of_lt_of_le hb (le_refl _) hp
            _ ≤ 128 * 2 ^ 56 :=
                Nat.mul_le_mul_left _ (Nat.pow_le_pow_right (by norm_num) hs56)
            _ < 2 ^ 64 := by norm_num
        omega
      subst hsh
      have h2 : (2 : Nat) ^ 63 = 9223372036854775808 := by norm_num
      have h3 : (2 : Nat) ^ 64 = 18446744073709551616 := by norm_num
      rw [h2, h3] at hge
      have hg : (63 : Nat) = 63 ∧ n ≠ 0 ∧ n ≠ 1 := ⟨rfl, by omega, by omega⟩
      rw [lebEncodeAux, if_pos hb]
      simp only [List.cons_append]
      rw [lebLoop, if_pos hg]
    · push_neg at hb
      by_cases hsh : shift = 63
      · subst hsh
        have hg : (63 : Nat) = 63 ∧ n % 128 + 128 ≠ 0 ∧ n % 128 + 128 ≠ 1 :=
          ⟨rfl, by omega, by omega⟩
        rw [lebEncodeAux, if_neg (Nat.not_lt.mpr hb)]
        simp only [List.cons_append]
        rw [lebLoop, if_pos hg]
      · have hs56 : shift ≤ 56 := by omega
        have hg : ¬ (shift = 63 ∧ n % 128 + 128 ≠ 0 ∧ n % 128 + 128 ≠ 1) := by
          rintro ⟨rfl, -, -⟩; omega
        have hdiv : n / 128 < 128 ^ f := by
          rw [pow_succ] at hn
          exact Nat.div_lt_of_lt_mul (by omega)
        have hge' : 2 ^ 64 ≤ n / 128 * 2 ^ (shift + 7) := by
          have hdm : (2 : Nat) ^ (shift + 7) * 2 ^ (57 - shift) = 2 ^ 64 := by
            rw [← pow_add]; congr 1; omega
          have hn2 : n * 2 ^ shift < (n / 128 + 1) * 2 ^ (shift + 7) := by
            have hlt : n < (n / 128 + 1) * 128 := by omega
            have hpow : (2 : Nat) ^ (shift + 7) = 128 * 2 ^ shift := by
              rw [pow_add]; ring_nf
            calc n * 2 ^ shift < ((n / 128 + 1) * 128) * 2 ^ shift := by
                  have hp : 0 < 2 ^ shift := Nat.pos_pow_of_pos _ (by norm_num)
                  exact Nat.mul_lt_mul_of_lt_of_le hlt (le_refl _) hp
              _ = (n / 128 + 1) * 2 ^ (shift + 7) := by rw [hpow]; ring
          have hlt2 : 2 ^ (shift + 7) * 2 ^ (57 - shift) <
              (n / 128 + 1) * 2 ^ (shift + 7) := by
            rw [hdm]; exact lt_of_le_of_lt hge hn2
          have hm : 2 ^ (57 - shift) < n / 128 + 1 := by
            have hp : 0 < (2 : Nat) ^ (shift + 7) := Nat.pos_pow_of_pos _ (by norm_num)
            rw [mul_comm ((2:Nat) ^ (shift + 7))] at hlt2
            exact Nat.lt_of_mul_lt_mul_right hlt2
          calc (2 : Nat) ^ 64 = 2 ^ (shift + 7) * 2 ^ (57 - shift) := hdm.symm
            _ ≤ 2 ^ (shift + 7) * (n / 128) := by
                have : 2 ^ (57 - shift) ≤ n / 128 := by omega
                exact Nat.mul_le_mul_left _ this
            _ = n / 128 * 2 ^ (shift + 7) := by ring
        have hrec := ih (n / 128) (shift + 7)
          (acc + (n % 128 + 128) % 128 * 2 ^ shift) hdiv (by omega) (by omega) hge'
        rw [lebEncodeAux, if_neg (Nat.not_lt.mpr hb)]
        simp only [List.cons_append]
        rw [lebLoop, if_neg hg, if_neg (by omega : ¬ n % 128 + 128 < 128), hrec]

/-- Reading the (fuelled) encoding of a value too large even for the
fuel — ten or more continuation bytes — hits the overflow guard. -/
theorem lebLoop_encode_huge (rest : List Nat) :
    ∀ f n shift acc, 128 ^ (f + 1) ≤ n → shift + 7 * (f + 1) = 70 →
      lebLoop (lebEncodeAux (f + 1) n ++ rest) shift acc = .error () := by
  intro f
  induction f with
  | zero =>
    intro n shift acc hn hs
    have hsh : shift = 63 := by omega
    subst hsh
    have hb : ¬ n < 128 := by simp at hn; omega
    rw [lebEncodeAux, if_neg hb]
    simp only [List.cons_append]
    rw [lebLoop, if_pos ⟨rfl, by omega, by omega⟩]
  | succ f ih =>
    intro n shift acc hn hs
    have h1 : 1 ≤ 128 ^ f := Nat.one_le_pow _ _ (by norm_num)
    have hn' : 128 ^ f * 128 * 128 ≤ n := by
      rw [pow_succ, pow_succ] at hn; exact hn
    have hb : ¬ n < 128 := by omega
    have hg : ¬ (shift = 63 ∧ n % 128 + 128 ≠ 0 ∧ n % 128 + 128 ≠ 1) := by
      rintro ⟨rfl, -, -⟩; omega
    have hdiv : 128 ^ (f + 1) ≤ n / 128 := by
      rw [Nat.le_div_iff_mul_le (by norm_num)]
      calc 128 ^ (f + 1) * 128 = 128 ^ (f + 2) := by rw [← pow_succ]
        _ ≤ n := hn
    rw [lebEncodeAux, if_neg hb]
    simp only [List.cons_append]
    rw [lebLoop, if_neg hg, if_neg (by omega : ¬ n % 128 + 128 < 128),
      ih (n / 128) (shift + 7) _ hdiv (by omega)]

/-- Decoding the minimal encoding of a 32-bit value succeeds and
consumes exactly the encoding. -/
theorem parseU32_encode_ok (n : Nat) (rest : List Nat) (p : Nat)
    (h : n < 2 ^ 32) :
    parseU32 { bytes := lebEncode n ++ rest, pos := p } =
      (.ok n, { bytes := rest, pos := p + (lebEncode n).length }) := by
  have hloop := lebLoop_encode_ok rest 10 n 0 0
    (by have : (2 : Nat) ^ 32 < 128 ^ 10 := by norm_num
        omega)
    (by norm_num) (by norm_num)
    (by simp only [pow_zero, mul_one]; omega)
  simp only [pow_zero, mul_one, Nat.zero_add] at hloop
  have hmax : n ≤ 4294967295 := by omega
  rw [parseU32]
  simp only [lebEncode] at hloop ⊢
  rw [hloop]
  simp [hmax, List.drop_left]

/-- Decoding the minimal encoding of a value in `[2^32, 2^64)` fails
with `UlebTooBig`, leaving the parser untouched. -/
theorem parseU32_encode_tooBig (n : Nat) (rest : List Nat) (p : Nat)
    (hlo : 2 ^ 32 ≤ n) (hhi : n < 2 ^ 64) :
    parseU32 { bytes := lebEncode n ++ rest, pos := p } =
      (.error { at_ := p, kind := .UlebTooBig n },
        { bytes := lebEncode n ++ rest, pos := p }) := by
  have hloop := lebLoop_encode_ok rest 10 n 0 0
    (by have : (2 : Nat) ^ 64 < 128 ^ 10 := by norm_num
        omega)
    (by norm_num) (by norm_num)
    (by simp only [pow_zero, mul_one]; omega)
  simp only [pow_zero, mul_one, Nat.zero_add] at hloop
  have hmax : ¬ n ≤ 4294967295 := by omega
  rw [parseU32]
  simp only [lebEncode] at hloop ⊢
  rw [hloop]
  simp [hmax, Parser.mkError]

/-- Decoding the minimal encoding of a value of 64 bits or more fails
with `UlebInvalid`, leaving the parser untouched. -/
theorem parseU32_encode_invalid (n : Nat) (rest : List Nat) (p : Nat)
    (hlo : 2 ^ 64 ≤ n) :
    parseU32 { bytes := lebEncode n ++ rest, pos := p } =
      (.error { at_ := p, kind := .UlebInvalid },
        { bytes := lebEncode n ++ rest, pos := p }) := by
  have hloop : lebLoop (lebEncodeAux 10 n ++ rest) 0 0 = .error () := by
    by_cases hhi : n < 128 ^ 10
    · exact lebLoop_encode_err rest 10 n 0 0 hhi (by norm_num) (by norm_num)
        (by simpa using hlo)
    · exact lebLoop_encode_huge rest 9 n 0 0 (by omega) (by norm_num)
  rw [parseU32]
  simp only [lebEncode] at hloop ⊢
  rw [hloop]
  simp [Parser.mkError]

/-- Structure of a successful varint decode: some positive number of
bytes within the input is consumed and the position advances by
exactly that count. -/
theorem parseU32_ok_struct {s : Parser} {n : Nat} {s' : Parser}
    (h : parseU32 s = (.ok n, s')) :
    ∃ c, 1 ≤ c ∧ c ≤ s.bytes.length ∧
      s' = { bytes := s.bytes.drop c, pos := s.pos + c } := by
  rw [parseU32] at h
  split at h
  next v c heq =>
    split at h
    · simp only [Prod.mk.injEq, Except.ok.injEq] at h
      obtain ⟨rfl, rfl⟩ := h
      obtain ⟨h1, h2⟩ := lebLoop_ok_le s.bytes 0 0 v c heq
      exact ⟨c, h1, h2, rfl⟩
    · simp at h
  next => simp at h

/-- A failed varint decode leaves the parser untouched and reports the
current position. -/
theorem parseU32_err_state {s : Parser} {e : Error} {s' : Parser}
    (h : parseU32 s = (.error e, s')) : s' = s ∧ e.at_ = s.pos := by
  rw [parseU32] at h
  split at h
  next v c heq =>
    split at h
    · simp at h
    · simp only [Prod.mk.injEq, Except.error.injEq] at h
      obtain ⟨rfl, rfl⟩ := h
      exact ⟨rfl, rfl⟩
  next heq =>
    simp only [Prod.mk.injEq, Except.error.injEq] at h
    obtain ⟨rfl, rfl⟩ := h
    exact ⟨rfl, rfl⟩

/-- Structure of a successful length-prefixed byte-range decode: a
varint (`c` bytes) followed by exactly `len` payload bytes, the parser
resuming right after the payload. -/
theorem parseBytes_ok_struct {s : Parser} {pl : List Nat} {s' : Parser}
    (h : parseBytes s = (.ok pl, s')) :
    ∃ c len, 1 ≤ c ∧ c ≤ s.bytes.length ∧ len ≤ (s.bytes.drop c).length ∧
      pl = (s.bytes.drop c).take len ∧
      s' = { bytes := (s.bytes.drop c).drop len, pos := s.pos + c + len } := by
  rw [parseBytes] at h
  split at h
  next e s₂ heq => simp at h
  next len s₂ heq =>
    obtain ⟨c, h1, h2, rfl⟩ := parseU32_ok_struct heq
    split at h
    next hle =>
      simp only [Prod.mk.injEq, Except.ok.injEq] at h
      obtain ⟨rfl, rfl⟩ := h
      exact ⟨c, len, h1, h2, hle, rfl, rfl⟩
    next => simp at h

/-! ### Claim theorems -/

/-- C1 (amended): for the `Func` whose length-prefixed encoding is
`[4, 0, 0x00, 3, 0x02]` — body `type_index=0, opcode 0x00, operand 3,
opcode 0x02` — fully enumerating the instruction iterator yields
exactly `[ArgGet 3]` with no error: the final `End` is consumed as the
stream terminator, ending iteration, and is not itself yielded.  For
the same body with the trailing `End` byte removed, full enumeration
yields `ArgGet 3` followed by an `UnexpectedEof` (the spec's
`UnexpectedEndOfInput`) error. -/
theorem instr_enumeration_c1 :
    funcParse { bytes := [4, 0, 0, 3, 2], pos := 0 } =
      (.ok { ty := 0, parser := { bytes := [0, 3, 2], pos := 2 } },
        { bytes := [], pos := 5 }) ∧
    instrsCollect 5 (Func.instrs { ty := 0, parser := { bytes := [0, 3, 2], pos := 2 } }) =
      [.ok (.ArgGet 3)] ∧
    funcParse { bytes := [3, 0, 0, 3], pos := 0 } =
      (.ok { ty := 0, parser := { bytes := [0, 3], pos := 2 } },
        { bytes := [], pos := 4 }) ∧
    instrsCollect 5 (Func.instrs { ty := 0, parser := { bytes := [0, 3], pos := 2 } }) =
      [.ok (.ArgGet 3), .error { at_ := 4, kind := .UnexpectedEof }] := by
  refine ⟨by decide, by decide, by decide, by decide⟩

/-- C1 counterexample: the claim asserts enumeration of the body
`type_index=0, 0x00, 3, 0x02` yields `[ArgGet 3, End]`; the iterator
actually ends after `ArgGet 3`, never yielding `End`. -/
theorem instr_enumeration_c1_cex :
    funcParse { bytes := [4, 0, 0, 3, 2], pos := 0 } =
      (.ok { ty := 0, parser := { bytes := [0, 3, 2], pos := 2 } },
        { bytes := [], pos := 5 }) ∧
    instrsCollect 5 (Func.instrs { ty := 0, parser := { bytes := [0, 3, 2], pos := 2 } }) ≠
      [.ok (.ArgGet 3), .ok .End] := by
  refine ⟨by decide, by decide⟩

/-- C2 (amended): failure position discipline per operation.  A failed
byte read (`read_u8`) and a failed varint decode leave the cursor
unchanged and report the offset where the token began.  `read_string`
on invalid UTF-8 reports and resets the position to the start of the
length prefix (the string bytes remaining consumed).  But `read_bytes`
truncation reports the position immediately after the length prefix,
strictly past the token start, without resetting; and `ValType` decode
on an unrecognised code fails with `InvalidValType(byte)` reported at
the position immediately after the code byte, the position not reset
to the byte.  `Instruction` and `Section` decode on an invalid
opcode/ id report the opcode/ id byte's own offset. -/
theorem error_position_discipline_c2 :
    (∀ s e s', parseU8 s = (.error e, s') → s' = s ∧ e.at_ = s.pos) ∧
    (∀ s e s', parseU32 s = (.error e, s') → s' = s ∧ e.at_ = s.pos) ∧
    (∀ s bs s', parseBytes s = (.ok bs, s') → utf8Valid bs = false →
      parseStr s = (.error { at_ := s.pos, kind := .InvalidUtf8 },
        { bytes := s'.bytes, pos := s.pos })) ∧
    (∀ s len s₂, parseU32 s = (.ok len, s₂) → s₂.bytes.length < len →
      parseBytes s = (.error { at_ := s₂.pos, kind := .Expected len }, s₂) ∧
        s.pos < s₂.pos) ∧
    (∀ s b s', parseU8 s = (.ok b, s') → 11 ≤ b →
      valTypeParse s = (.error { at_ := s.pos + 1, kind := .InvalidValType b }, s') ∧
        s'.pos = s.pos + 1) ∧
    (∀ s b s', parseU8 s = (.ok b, s') → 3 ≤ b →
      instrParse s = (.error { at_ := s.pos, kind := .InvalidInstruction b },
        { bytes := s'.bytes, pos := s.pos })) ∧
    (∀ s id s₁ pl s₂, parseU8 s = (.ok id, s₁) → parseBytes s₁ = (.ok pl, s₂) →
      4 ≤ id →
      sectionParse s = (.error { at_ := s.pos, kind := .InvalidSection id }, s₂)) := by
  refine ⟨?_, ?_, ?_, ?_, ?_, ?_, ?_⟩
  · intro s e s' h
    rcases s with ⟨bytes, pos⟩
    cases bytes with
    | nil =>
      simp only [parseU8, Prod.mk.injEq, Except.error.injEq] at h
      obtain ⟨rfl, rfl⟩ := h
      exact ⟨rfl, rfl⟩
    | cons b rest => simp [parseU8] at h
  · intro s e s' h
    exact parseU32_err_state h
  · intro s bs s' h hbad
    rw [parseStr, h]
    simp [hbad]
  · intro s len s₂ h hlt
    obtain ⟨c, hc1, -, hstruct⟩ := parseU32_ok_struct h
    have hno : ¬ len ≤ s₂.bytes.length := by omega
    constructor
    · rw [parseBytes, h]
      simp [hno, Parser.mkError]
    · rw [hstruct]
      simp
      omega
  · intro s b s' h hb
    obtain ⟨-, hpos⟩ := parseU8_ok h
    obtain ⟨k, rfl⟩ : ∃ k, b = k + 11 := ⟨b - 11, by omega⟩
    refine ⟨?_, hpos⟩
    rw [valTypeParse, h, ← hpos]
    rfl
  · intro s b s' h hb
    obtain ⟨k, rfl⟩ : ∃ k, b = k + 3 := ⟨b - 3, by omega⟩
    rw [instrParse, h]
    rfl
  · intro s id s₁ pl s₂ h1 h2 hid
    obtain ⟨k, rfl⟩ : ∃ k, id = k + 4 := ⟨id - 4, by omega⟩
    simp only [sectionParse, h1, h2]

/-- C2 witness: concrete instances of each conjunct — byte read at end
of input, varint on an over-wide continuation run, invalid UTF-8
string, truncated byte range, value-type code 11, opcode 3, and
section id 9. -/
theorem error_position_discipline_c2_witness :
    (({ bytes := [], pos := 7 } : Parser) = { bytes := [], pos := 7 } ∧
      ({ at_ := 7, kind := .UnexpectedEof } : Error).at_ = 7) ∧
    (({ bytes := [128], pos := 2 } : Parser) = { bytes := [128], pos := 2 } ∧
      ({ at_ := 2, kind := .UlebInvalid } : Error).at_ = 2) ∧
    parseStr { bytes := [1, 128], pos := 0 } =
      (.error { at_ := 0, kind := .InvalidUtf8 }, { bytes := [], pos := 0 }) ∧
    parseBytes { bytes := [5], pos := 3 } =
      (.error { at_ := 4, kind := .Expected 5 }, { bytes := [], pos := 4 }) ∧
    valTypeParse { bytes := [11], pos := 0 } =
      (.error { at_ := 1, kind := .InvalidValType 11 }, { bytes := [], pos := 1 }) ∧
    instrParse { bytes := [3, 9], pos := 0 } =
      (.error { at_ := 0, kind := .InvalidInstruction 3 }, { bytes := [9], pos := 0 }) ∧
    sectionParse { bytes := [9, 0], pos := 0 } =
      (.error { at_ := 0, kind := .InvalidSection 9 }, { bytes := [], pos := 2 }) := by
  refine ⟨?_, ?_, ?_, ?_, ?_, ?_, ?_⟩
  · exact error_position_discipline_c2.1 { bytes := [], pos := 7 }
      { at_ := 7, kind := .UnexpectedEof } { bytes := [], pos := 7 } (by decide)
  · exact error_position_discipline_c2.2.1 { bytes := [128], pos := 2 }
      { at_ := 2, kind := .UlebInvalid } { bytes := [128], pos := 2 } (by decide)
  · exact error_position_discipline_c2.2.2.1 { bytes := [1, 128], pos := 0 } [128]
      { bytes := [], pos := 2 } (by decide) (by decide)
  · exact (error_position_discipline_c2.2.2.2.1 { bytes := [5], pos := 3 } 5
      { bytes := [], pos := 4 } (by decide) (by decide)).1
  · exact (error_position_discipline_c2.2.2.2.2.1 { bytes := [11], pos := 0 } 11
      { bytes := [], pos := 1 } (by decide) (by decide)).1
  · exact error_position_discipline_c2.2.2.2.2.2.1 { bytes := [3, 9], pos := 0 } 3
      { bytes := [9], pos := 1 } (by decide) (by decide)
  · exact error_position_discipline_c2.2.2.2.2.2.2 { bytes := [9, 0], pos := 0 } 9
      { bytes := [0], pos := 1 } [] { bytes := [], pos := 2 } (by decide) (by decide)
      (by decide)

/-- C2 counterexample: the claim says a failing `ValType` decode
restores the cursor to the offending byte and reports that offset; on
input `[11]` at offset 0 the error is reported at offset 1 and the
cursor is left at position 1, not 0. -/
theorem error_position_discipline_c2_cex :
    valTypeParse { bytes := [11], pos := 0 } =
      (.error { at_ := 1, kind := .InvalidValType 11 }, { bytes := [], pos := 1 }) ∧
    (1 : Nat) ≠ 0 := by
  refine ⟨by decide, by decide⟩

/-- C3 (amended): decoding a `Func` item whose declared body length
exceeds the remaining bytes fails with `Expected len` (the spec's
`Truncated`) carrying the declared length, but the reported offset is
the position immediately after the length prefix (strictly past the
prefix's own offset), not the offset of the prefix. -/
theorem truncated_func_c3 :
    ∀ s len s₂, parseU32 s = (.ok len, s₂) → s₂.bytes.length < len →
      funcParse s = (.error { at_ := s₂.pos, kind := .Expected len }, s₂) ∧
        s.pos < s₂.pos := by
  intro s len s₂ h hlt
  obtain ⟨c, hc1, -, hstruct⟩ := parseU32_ok_struct h
  have hno : ¬ len ≤ s₂.bytes.length := by omega
  have hpb : parseBytes s =
      (.error { at_ := s₂.pos, kind := .Expected len }, s₂) := by
    rw [parseBytes, h]
    simp [hno, Parser.mkError]
  refine ⟨?_, ?_⟩
  · rw [funcParse, hpb]
  · rw [hstruct]
    simp
    omega

/-- C3 witness: a one-byte input `[5]` declaring a five-byte body. -/
theorem truncated_func_c3_witness :
    funcParse { bytes := [5], pos := 0 } =
      (.error { at_ := 1, kind := .Expected 5 }, { bytes := [], pos := 1 }) ∧
    (0 : Nat) < 1 :=
  truncated_func_c3 { bytes := [5], pos := 0 } 5 { bytes := [], pos := 1 }
    (by decide) (by decide)

/-- C3 counterexample: on input `[5]` with the length prefix at offset
0, the claim says the `Truncated` error is reported at offset 0; it is
reported at offset 1. -/
theorem truncated_func_c3_cex :
    funcParse { bytes := [5], pos := 0 } =
      (.error { at_ := 1, kind := .Expected 5 }, { bytes := [], pos := 1 }) ∧
    (1 : Nat) ≠ 0 :=
  ⟨by decide, by decide⟩

/-- C4 (amended): the decoder and the text-side encoder agree on the
instruction table (`0x00=ArgGet`, `0x01=CallCore` with one varint
operand each, `0x02=End` with none): `decode (encode v) = v`, fully
consuming the bytes, for every instruction whose numeric index fits
32 bits; and `encode (decode bytes) = bytes` holds for every
well-formed single-instruction byte sequence whose operand varint is
minimally encoded — equivalently, every sequence in the image of the
encoder — while a sequence with a padded operand encoding decodes
successfully but re-encodes to the minimal form. -/
theorem instruction_roundtrip_c4 :
    (∀ p n, n < 2 ^ 32 →
      instrParse { bytes := encodeInstr (.ArgGet n), pos := p } =
        (.ok (.ArgGet n), { bytes := [], pos := p + 1 + (lebEncode n).length })) ∧
    (∀ p n, n < 2 ^ 32 →
      instrParse { bytes := encodeInstr (.CallCore n), pos := p } =
        (.ok (.CallCore n), { bytes := [], pos := p + 1 + (lebEncode n).length })) ∧
    (∀ p, instrParse { bytes := encodeInstr .End, pos := p } =
      (.ok .End, { bytes := [], pos := p + 1 })) ∧
    (∀ bytes p v s', instrParse { bytes := bytes, pos := p } = (.ok v, s') →
      s'.bytes = [] → (∃ w, bytes = encodeInstr w) → bytes = encodeInstr v) := by
  have hArg : ∀ p n, n < 2 ^ 32 →
      instrParse { bytes := encodeInstr (.ArgGet n), pos := p } =
        (.ok (.ArgGet n), { bytes := [], pos := p + 1 + (lebEncode n).length }) := by
    intro p n hn
    have h32 := parseU32_encode_ok n [] (p + 1) hn
    rw [List.append_nil] at h32
    simp only [encodeInstr, instrParse, parseU8]
    rw [h32]
  have hCall : ∀ p n, n < 2 ^ 32 →
      instrParse { bytes := encodeInstr (.CallCore n), pos := p } =
        (.ok (.CallCore n), { bytes := [], pos := p + 1 + (lebEncode n).length }) := by
    intro p n hn
    have h32 := parseU32_encode_ok n [] (p + 1) hn
    rw [List.append_nil] at h32
    simp only [encodeInstr, instrParse, parseU8]
    rw [h32]
  have hEnd : ∀ p, instrParse { bytes := encodeInstr .End, pos := p } =
      (.ok .End, { bytes := [], pos := p + 1 }) := by
    intro p
    rfl
  have hArgBig : ∀ p n, 2 ^ 32 ≤ n → ∃ e s₂,
      instrParse { bytes := encodeInstr (.ArgGet n), pos := p } = (.error e, s₂) := by
    intro p n hn
    by_cases hlt : n < 2 ^ 64
    · have h1 := parseU32_encode_tooBig n [] (p + 1) hn hlt
      rw [List.append_nil] at h1
      refine ⟨{ at_ := p + 1, kind := .UlebTooBig n },
        { bytes := lebEncode n, pos := p + 1 }, ?_⟩
      simp only [encodeInstr, instrParse, parseU8]
      rw [h1]
    · have h1 := parseU32_encode_invalid n [] (p + 1) (by omega)
      rw [List.append_nil] at h1
      refine ⟨{ at_ := p + 1, kind := .UlebInvalid },
        { bytes := lebEncode n, pos := p + 1 }, ?_⟩
      simp only [encodeInstr, instrParse, parseU8]
      rw [h1]
  have hCallBig : ∀ p n, 2 ^ 32 ≤ n → ∃ e s₂,
      instrParse { bytes := encodeInstr (.CallCore n), pos := p } = (.error e, s₂) := by
    intro p n hn
    by_cases hlt : n < 2 ^ 64
    · have h1 := parseU32_encode_tooBig n [] (p + 1) hn hlt
      rw [List.append_nil] at h1
      refine ⟨{ at_ := p + 1, kind := .UlebTooBig n },
        { bytes := lebEncode n, pos := p + 1 }, ?_⟩
      simp only [encodeInstr, instrParse, parseU8]
      rw [h1]
    · have h1 := parseU32_encode_invalid n [] (p + 1) (by omega)
      rw [List.append_nil] at h1
      refine ⟨{ at_ := p + 1, kind := .UlebInvalid },
        { bytes := lebEncode n, pos := p + 1 }, ?_⟩
      simp only [encodeInstr, instrParse, parseU8]
      rw [h1]
  refine ⟨hArg, hCall, hEnd, ?_⟩
  rintro bytes p v s' h hempty ⟨w, rfl⟩
  cases w with
  | ArgGet m =>
    by_cases hm : m < 2 ^ 32
    · rw [hArg p m hm] at h
      simp only [Prod.mk.injEq, Except.ok.injEq] at h
      obtain ⟨rfl, -⟩ := h
      rfl
    · obtain ⟨e, s₂, hbad⟩ := hArgBig p m (by omega)
      rw [hbad] at h
      simp at h
  | CallCore m =>
    by_cases hm : m < 2 ^ 32
    · rw [hCall p m hm] at h
      simp only [Prod.mk.injEq, Except.ok.injEq] at h
      obtain ⟨rfl, -⟩ := h
      rfl
    · obtain ⟨e, s₂, hbad⟩ := hCallBig p m (by omega)
      rw [hbad] at h
      simp at h
  | End =>
    rw [hEnd p] at h
    simp only [Prod.mk.injEq, Except.ok.injEq] at h
    obtain ⟨rfl, -⟩ := h
    rfl

/-- C4 witness: round-tripping `ArgGet 3` in both directions. -/
theorem instruction_roundtrip_c4_witness :
    instrParse { bytes := encodeInstr (.ArgGet 3), pos := 0 } =
      (.ok (.ArgGet 3), { bytes := [], pos := 0 + 1 + (lebEncode 3).length }) ∧
    ([0, 3] : List Nat) = encodeInstr (.ArgGet 3) := by
  constructor
  · exact instruction_roundtrip_c4.1 0 3 (by norm_num)
  · exact instruction_roundtrip_c4.2.2.2 [0, 3] 0 (.ArgGet 3)
      { bytes := [], pos := 2 } (by decide) (by decide) ⟨.ArgGet 3, by decide⟩

/-- C4 counterexample: `[0x00, 0x83, 0x00]` is a well-formed
single-instruction sequence (it decodes, fully consumed, to
`ArgGet 3`), but re-encoding yields the minimal `[0x00, 0x03]`, so
`encode (decode bytes) = bytes` fails as universally claimed. -/
theorem instruction_roundtrip_c4_cex :
    instrParse { bytes := [0, 131, 0], pos := 0 } =
      (.ok (.ArgGet 3), { bytes := [], pos := 3 }) ∧
    encodeInstr (.ArgGet 3) = [0, 3] ∧
    ([0, 3] : List Nat) ≠ [0, 131, 0] :=
  ⟨by decide, by decide, by decide⟩

/-- C5: the bounded section-item driver, for every element decoder:
with count zero and a nonempty scoped cursor it fails with
`TrailingBytes`; with count zero and an empty cursor it ends iteration;
with a nonzero count it decrements the count and decodes exactly one
item, propagating the item decoder's result (error included)
unchanged. -/
theorem bounded_iteration_c5 :
    (∀ (α : Type) (p : Parser → Except Error α × Parser) (s : Parser),
      s.bytes ≠ [] →
      parse_next_in_section p s 0 =
        (some (.error { at_ := s.pos, kind := .TrailingBytes }), s, 0)) ∧
    (∀ (α : Type) (p : Parser → Except Error α × Parser) (s : Parser),
      s.bytes = [] → parse_next_in_section p s 0 = (none, s, 0)) ∧
    (∀ (α : Type) (p : Parser → Except Error α × Parser) (s : Parser) (cnt : Nat),
      cnt ≠ 0 →
      parse_next_in_section p s cnt = (some (p s).1, (p s).2, cnt - 1)) := by
  refine ⟨?_, ?_, ?_⟩
  · intro α p s hne
    rw [parse_next_in_section, if_pos rfl,
      if_pos (by simpa [List.length_eq_zero] using hne)]
    rfl
  · intro α p s he
    rw [parse_next_in_section, if_pos rfl, if_neg (by simp [he])]
  · intro α p s cnt hc
    rw [parse_next_in_section, if_neg hc]

/-- C5 witness: a byte-item iterator over `[7]` with count 0 (trailing
bytes), over `[]` with count 0 (clean end), and over `[7]` with
count 2 (an item is decoded, the count drops to 1). -/
theorem bounded_iteration_c5_witness :
    parse_next_in_section parseU8 { bytes := [7], pos := 0 } 0 =
      (some (.error { at_ := 0, kind := .TrailingBytes }),
        { bytes := [7], pos := 0 }, 0) ∧
    parse_next_in_section parseU8 { bytes := [], pos := 4 } 0 =
      (none, { bytes := [], pos := 4 }, 0) ∧
    parse_next_in_section parseU8 { bytes := [7], pos := 0 } 2 =
      (some (.ok 7), { bytes := [], pos := 1 }, 1) := by
  refine ⟨?_, ?_, ?_⟩
  · exact bounded_iteration_c5.1 Nat parseU8 _ (by decide)
  · exact bounded_iteration_c5.2.1 Nat parseU8 _ (by decide)
  · exact bounded_iteration_c5.2.2 Nat parseU8 { bytes := [7], pos := 0 } 2
      (by decide)

/-- C6 (amended): when the section id byte is outside `0..=3` and the
following length-prefixed payload decodes, `Section` decode fails with
`InvalidSection id` whose reported position is the id byte's exact
offset; but only a local (shadowing) sub-cursor is repositioned — the
caller's cursor is left past the payload, at least two bytes beyond
the id byte, not reset to it.  (When the payload itself fails to
decode, that failure is reported instead of `InvalidSection`.) -/
theorem invalid_section_c6 :
    ∀ s id s₁ pl s₂, parseU8 s = (.ok id, s₁) → parseBytes s₁ = (.ok pl, s₂) →
      4 ≤ id →
      sectionParse s = (.error { at_ := s.pos, kind := .InvalidSection id }, s₂) ∧
        s.pos + 2 ≤ s₂.pos := by
  intro s id s₁ pl s₂ h1 h2 hid
  obtain ⟨k, rfl⟩ : ∃ k, id = k + 4 := ⟨id - 4, by omega⟩
  obtain ⟨-, hp1⟩ := parseU8_ok h1
  obtain ⟨c, len, hc1, -, -, -, hstruct⟩ := parseBytes_ok_struct h2
  refine ⟨?_, ?_⟩
  · simp only [sectionParse, h1, h2]
  · rw [hstruct]
    simp
    omega

/-- C6 witness: input `[9, 0]` — id 9 at offset 0, empty payload. -/
theorem invalid_section_c6_witness :
    sectionParse { bytes := [9, 0], pos := 0 } =
      (.error { at_ := 0, kind := .InvalidSection 9 }, { bytes := [], pos := 2 }) ∧
    (0 : Nat) + 2 ≤ 2 :=
  invalid_section_c6 { bytes := [9, 0], pos := 0 } 9 { bytes := [0], pos := 1 }
    [] { bytes := [], pos := 2 } (by decide) (by decide) (by decide)

/-- C6 counterexample: on `[9, 0]` the error is `InvalidSection 9` at
offset 0, but the caller's cursor ends at position 2, not reset to the
id byte; and on `[9]` (id not followed by a decodable payload) the
failure is `UlebInvalid` at offset 1, not `InvalidSection 9`, refuting
the claim's universal quantification over all inputs whose id byte is
outside `0..=3`. -/
theorem invalid_section_c6_cex :
    sectionParse { bytes := [9, 0], pos := 0 } =
      (.error { at_ := 0, kind := .InvalidSection 9 }, { bytes := [], pos := 2 }) ∧
    (2 : Nat) ≠ 0 ∧
    sectionParse { bytes := [9], pos := 0 } =
      (.error { at_ := 1, kind := .UlebInvalid }, { bytes := [], pos := 1 }) :=
  ⟨by decide, by decide, by decide⟩

/-- C7 (amended): varint decode succeeds on the minimal LEB128
encoding of every value up to `2^32 - 1`, returning the value with the
cursor advanced exactly past the consumed bytes; it fails with
`UlebTooBig` (the spec's `VarintTooLarge`) on the encoding of every
value in `[2^32, 2^64)`; but on the encoding of a value of 64 bits or
more — in particular exactly `2^64` — it fails with `UlebInvalid`
(the spec's `VarintMalformed`), not `UlebTooBig`, because the 64-bit
read loop overflows before a value is produced. -/
theorem varint_range_c7 :
    (∀ p n rest, n ≤ 2 ^ 32 - 1 →
      parseU32 { bytes := lebEncode n ++ rest, pos := p } =
        (.ok n, { bytes := rest, pos := p + (lebEncode n).length })) ∧
    (∀ p n rest, 2 ^ 32 ≤ n → n < 2 ^ 64 →
      parseU32 { bytes := lebEncode n ++ rest, pos := p } =
        (.error { at_ := p, kind := .UlebTooBig n },
          { bytes := lebEncode n ++ rest, pos := p })) ∧
    (∀ p n rest, 2 ^ 64 ≤ n →
      parseU32 { bytes := lebEncode n ++ rest, pos := p } =
        (.error { at_ := p, kind := .UlebInvalid },
          { bytes := lebEncode n ++ rest, pos := p })) := by
  refine ⟨?_, ?_, ?_⟩
  · intro p n rest h
    exact parseU32_encode_ok n rest p (by omega)
  · intro p n rest h1 h2
    exact parseU32_encode_tooBig n rest p h1 h2
  · intro p n rest h
    exact parseU32_encode_invalid n rest p h

/-- C7 witness: the boundary values `2^32 - 1` (decodes) and `2^32`
(fails with `UlebTooBig`). -/
theorem varint_range_c7_witness :
    parseU32 { bytes := [255, 255, 255, 255, 15], pos := 0 } =
      (.ok 4294967295, { bytes := [], pos := 5 }) ∧
    parseU32 { bytes := [128, 128, 128, 128, 16], pos := 0 } =
      (.error { at_ := 0, kind := .UlebTooBig 4294967296 },
        { bytes := [128, 128, 128, 128, 16], pos := 0 }) := by
  constructor
  · have h := varint_range_c7.1 0 4294967295 [] (by norm_num)
    have he : lebEncode 4294967295 = [255, 255, 255, 255, 15] := by decide
    rw [he, List.append_nil] at h
    simpa using h
  · have h := varint_range_c7.2.1 0 4294967296 [] (by norm_num) (by norm_num)
    have he : lebEncode 4294967296 = [128, 128, 128, 128, 16] := by decide
    rw [he, List.append_nil] at h
    simpa using h

/-- C7 counterexample: the ten-byte minimal encoding of exactly `2^64`
fails with `UlebInvalid`, not `UlebTooBig` as the claim demands for
every value at or above `2^32`; and the eleven-byte padded encoding of
the value 0 — a valid (non-minimal) LEB128 encoding of a value below
`2^32` — is also rejected with `UlebInvalid` instead of decoding. -/
theorem varint_range_c7_cex :
    lebEncode 18446744073709551616 =
      [128, 128, 128, 128, 128, 128, 128, 128, 128, 2] ∧
    parseU32 { bytes := [128, 128, 128, 128, 128, 128, 128, 128, 128, 2], pos := 0 } =
      (.error { at_ := 0, kind := .UlebInvalid },
        { bytes := [128, 128, 128, 128, 128, 128, 128, 128, 128, 2], pos := 0 }) ∧
    (ErrorKind.UlebInvalid ≠ ErrorKind.UlebTooBig 18446744073709551616) ∧
    parseU32 { bytes := [128, 128, 128, 128, 128, 128, 128, 128, 128, 128, 0], pos := 0 } =
      (.error { at_ := 0, kind := .UlebInvalid },
        { bytes := [128, 128, 128, 128, 128, 128, 128, 128, 128, 128, 0], pos := 0 }) :=
  ⟨by decide, by decide, by decide, by decide⟩

/-- C9: parser construction decodes the leading length-prefixed string
and compares it byte-for-byte with the supplied expected version; if
the leading string decodes but differs, construction fails with
`InvalidVersion` carrying the found string, reported at position zero,
and no parser value — hence no section decoding — is produced. -/
theorem version_guard_c9 :
    ∀ version bytes found s',
      parseStr { bytes := bytes, pos := 0 } = (.ok found, s') →
      found ≠ version →
      newParser version bytes = .error { at_ := 0, kind := .InvalidVersion found } := by
  intro version bytes found s' h hne
  simp [newParser, h, hne]

/-- C9 witness: expected version `[97]`, input `[1, 98]` whose leading
string is `[98]`. -/
theorem version_guard_c9_witness :
    newParser [97] [1, 98] = .error { at_ := 0, kind := .InvalidVersion [98] } :=
  version_guard_c9 [97] [1, 98] [98] { bytes := [], pos := 2 }
    (by decide) (by decide)

/-- C10: the bounded driver is not fused: a nonzero count is
decremented before the item decode runs, whatever its outcome, and
after a yielded error a further call with remaining nonzero count
still attempts another item decode from wherever the cursor stopped
instead of ending iteration. -/
theorem iterator_not_fused_c10 :
    ∀ (α : Type) (p : Parser → Except Error α × Parser) (s : Parser) (cnt : Nat),
      cnt ≠ 0 →
      parse_next_in_section p s cnt = (some (p s).1, (p s).2, cnt - 1) ∧
      (∀ e, (p s).1 = .error e → cnt - 1 ≠ 0 →
        (parse_next_in_section p (p s).2 (cnt - 1)).1 = some (p (p s).2).1) := by
  intro α p s cnt hc
  constructor
  · rw [parse_next_in_section, if_neg hc]
  · intro e he hc'
    rw [parse_next_in_section, if_neg hc']

/-- C10 witness: a byte-item iterator over empty input with count 2 —
the first call yields an end-of-input error and drops the count to 1,
and the second call still attempts (and yields) another decode. -/
theorem iterator_not_fused_c10_witness :
    parse_next_in_section parseU8 { bytes := [], pos := 0 } 2 =
      (some (.error { at_ := 0, kind := .UnexpectedEof }),
        { bytes := [], pos := 0 }, 1) ∧
    (parse_next_in_section parseU8 { bytes := [], pos := 0 } 1).1 =
      some (.error { at_ := 0, kind := .UnexpectedEof }) := by
  have h := iterator_not_fused_c10 Nat parseU8 { bytes := [], pos := 0 } 2
    (by decide)
  exact ⟨h.1, h.2 { at_ := 0, kind := .UnexpectedEof } rfl (by decide)⟩

/-- Shared analysis of the carve pattern (`Section::parse` and
`Func::parse`): a length-prefixed payload is cut out of the input, a
sub-cursor is built over exactly that payload with its position
recomputed to the payload's true offset, and a leading varint is
decoded from the sub-cursor. -/
theorem carve_struct {s₁ : Parser} {pl : List Nat} {s'' : Parser} {cnt : Nat}
    {sub' : Parser}
    (h2 : parseBytes s₁ = (.ok pl, s''))
    (h3 : parseU32 { bytes := pl, pos := s''.pos - pl.length } = (.ok cnt, sub')) :
    ∃ pre c, s₁.bytes = pre ++ (pl ++ s''.bytes) ∧
      s''.pos = s₁.pos + pre.length + pl.length ∧
      c ≤ pl.length ∧
      sub'.bytes = pl.drop c ∧
      sub'.pos = s₁.pos + pre.length + c := by
  obtain ⟨c0, len, hc0, hc0le, hlen, rfl, rfl⟩ := parseBytes_ok_struct h2
  obtain ⟨c1, hc1, hc1le, rfl⟩ := parseU32_ok_struct h3
  simp only [List.length_drop] at hlen
  refine ⟨s₁.bytes.take c0, c1, ?_, ?_, ?_, ?_, ?_⟩
  · show s₁.bytes = s₁.bytes.take c0 ++
      ((s₁.bytes.drop c0).take len ++ (s₁.bytes.drop c0).drop len)
    rw [List.take_append_drop, List.take_append_drop]
  · show s₁.pos + c0 + len =
      s₁.pos + (s₁.bytes.take c0).length + ((s₁.bytes.drop c0).take len).length
    simp only [List.length_take, List.length_drop]
    omega
  · exact hc1le
  · rfl
  · show s₁.pos + c0 + len - ((s₁.bytes.drop c0).take len).length + c1 =
      s₁.pos + (s₁.bytes.take c0).length + c1
    simp only [List.length_take, List.length_drop]
    omega

/-- C8: for every successfully decoded `Section` and `Func`, the
carved sub-cursor is scoped exactly to the declared length-prefixed
payload — its byte range is a contiguous slice of the input, the
caller's cursor resumes immediately after it, and any decoding through
the sub-cursor can touch payload bytes only — and the sub-cursor's
position is the payload's true absolute offset in the original buffer
(the outer position after the carve minus the payload length), the
retained inner parser sitting at that offset plus the count/type-index
varint it has already consumed. -/
theorem subcursor_scoping_c8 :
    (∀ s sec s₃, sectionParse s = (.ok sec, s₃) →
      ∃ pre pl c, s.bytes = pre ++ (pl ++ s₃.bytes) ∧
        s₃.pos = s.pos + pre.length + pl.length ∧
        c ≤ pl.length ∧
        (sectionInner sec).bytes = pl.drop c ∧
        (sectionInner sec).pos = s.pos + pre.length + c) ∧
    (∀ s f s₃, funcParse s = (.ok f, s₃) →
      ∃ pre pl c, s.bytes = pre ++ (pl ++ s₃.bytes) ∧
        s₃.pos = s.pos + pre.length + pl.length ∧
        c ≤ pl.length ∧
        f.parser.bytes = pl.drop c ∧
        f.parser.pos = s.pos + pre.length + c) := by
  constructor
  · intro s sec s₃ h
    have main : ∀ (id : Nat) (s₁ : Parser) (pl : List Nat) (s'' : Parser)
        (cnt : Nat) (sub' : Parser),
        parseU8 s = (.ok id, s₁) → parseBytes s₁ = (.ok pl, s'') →
        parseU32 { bytes := pl, pos := s''.pos - pl.length } = (.ok cnt, sub') →
        ∃ pre pl' c, s.bytes = pre ++ (pl' ++ s''.bytes) ∧
          s''.pos = s.pos + pre.length + pl'.length ∧ c ≤ pl'.length ∧
          sub'.bytes = pl'.drop c ∧ sub'.pos = s.pos + pre.length + c := by
      intro id s₁ pl s'' cnt sub' h1 h2 h3
      obtain ⟨hb, hp⟩ := parseU8_ok h1
      obtain ⟨pre0, c, e1, e2, e3, e4, e5⟩ := carve_struct h2 h3
      refine ⟨id :: pre0, pl, c, ?_, ?_, e3, e4, ?_⟩
      · rw [hb, e1]
        simp
      · simp only [List.length_cons]
        omega
      · simp only [List.length_cons]
        omega
    simp only [sectionParse] at h
    split at h
    next e s₁ heq1 => simp at h
    next id s₁ heq1 =>
      split at h
      next e s'' heq2 => simp at h
      next pl s'' heq2 =>
        split at h
        · split at h
          next heq3 => simp at h
          next cnt sub' heq3 =>
            simp only [Prod.mk.injEq, Except.ok.injEq] at h
            obtain ⟨rfl, rfl⟩ := h
            exact main _ _ _ _ _ _ heq1 heq2 heq3
        · split at h
          next heq3 => simp at h
          next cnt sub' heq3 =>
            simp only [Prod.mk.injEq, Except.ok.injEq] at h
            obtain ⟨rfl, rfl⟩ := h
            exact main _ _ _ _ _ _ heq1 heq2 heq3
        · split at h
          next heq3 => simp at h
          next cnt sub' heq3 =>
            simp only [Prod.mk.injEq, Except.ok.injEq] at h
            obtain ⟨rfl, rfl⟩ := h
            exact main _ _ _ _ _ _ heq1 heq2 heq3
        · split at h
          next heq3 => simp at h
          next cnt sub' heq3 =>
            simp only [Prod.mk.injEq, Except.ok.injEq] at h
            obtain ⟨rfl, rfl⟩ := h
            exact main _ _ _ _ _ _ heq1 heq2 heq3
        · simp at h
  · intro s f s₃ h
    simp only [funcParse] at h
    split at h
    next e s₁ heq1 => simp at h
    next pl s'' heq2 =>
      split at h
      next e x heq3 => simp at h
      next ty sub' heq3 =>
        simp only [Prod.mk.injEq, Except.ok.injEq] at h
        obtain ⟨rfl, rfl⟩ := h
        obtain ⟨pre0, c, e1, e2, e3, e4, e5⟩ := carve_struct heq2 heq3
        exact ⟨pre0, pl, c, e1, e2, e3, e4, e5⟩

/-- C8 witness: a Type section `[id=0, len=1, payload=[count=0]]` and
a Func item `[len=1, body=[type_index=0]]`. -/
theorem subcursor_scoping_c8_witness :
    (∃ pre pl c,
      ([0, 1, 0] : List Nat) = pre ++ (pl ++ ([] : List Nat)) ∧
      3 = 0 + pre.length + pl.length ∧
      c ≤ pl.length ∧
      (sectionInner (.TypeS { parser := { bytes := [], pos := 3 }, cnt := 0 })).bytes =
        pl.drop c ∧
      (sectionInner (.TypeS { parser := { bytes := [], pos := 3 }, cnt := 0 })).pos =
        0 + pre.length + c) ∧
    (∃ pre pl c,
      ([1, 0] : List Nat) = pre ++ (pl ++ ([] : List Nat)) ∧
      2 = 0 + pre.length + pl.length ∧
      c ≤ pl.length ∧
      (({ ty := 0, parser := { bytes := [], pos := 2 } } : Func).parser).bytes =
        pl.drop c ∧
      (({ ty := 0, parser := { bytes := [], pos := 2 } } : Func).parser).pos =
        0 + pre.length + c) := by
  constructor
  · exact subcursor_scoping_c8.1 { bytes := [0, 1, 0], pos := 0 }
      (.TypeS { parser := { bytes := [], pos := 3 }, cnt := 0 })
      { bytes := [], pos := 3 } (by decide)
  · exact subcursor_scoping_c8.2 { bytes := [1, 0], pos := 0 }
      { ty := 0, parser := { bytes := [], pos := 2 } }
      { bytes := [], pos := 2 } (by decide)
